import Mathlib

/-!
Verification of the spatial coverage environment (gym_flock/envs/spatial/coverage.py).

The development shallowly embeds the graph-simulation and routing core of the
environment: the horizon-bounded all-pairs relaxation `construct_time_matrix`,
the per-robot action-edge construction `get_action_edges`, the collision
resolution inside `step`, the reward/done bookkeeping of `_get_obs_reward`,
the controller's action translation, and the `get_n_nearest` breadth expansion.

Python `while` loops are embedded as fuel-indexed recursions; `np.Inf` costs
are `Option Nat` with `none` standing for infinity, and the `-1` sentinels of
the predecessor matrix are likewise `none`.  The motion-graph edge list is a
`List (Nat × Nat)` of (sender, receiver) pairs; its construction lives in
`utils._get_graph_edges`, whose source is not part of the reviewed tree, so
edge lists are taken as inputs constrained only by what the spec states
(symmetric radius graph with self-loops, order unspecified).
-/

namespace GymFlock

/-- Fixed number of candidate actions per robot (`N_ACTIONS` in coverage.py). -/
def N_ACTIONS : Nat := 4

/-- Sentinel cost assigned to unreachable pairs (`MAX_COST` in coverage.py). -/
def MAX_COST : Nat := 1000

/-- Successor of an extended-natural cost: `time_matrix[:, sender] + edge_time`
with unit edge cost, where `none` is `np.Inf`. -/
def optAdd1 : Option Nat → Option Nat := Option.map (· + 1)

/-- Minimum of two extended-natural costs (`np.minimum` with `Inf` as `none`). -/
def optMin : Option Nat → Option Nat → Option Nat
  | none, b => b
  | some a, none => some a
  | some a, some b => some (min a b)

/-- Strict comparison of extended-natural costs, `none` being infinite. -/
def optLt : Option Nat → Option Nat → Bool
  | none, _ => false
  | some _, none => true
  | some a, some b => a < b

/-- State threaded through the relaxation loop of `construct_time_matrix`:
the cost matrix, the predecessor matrix, the `changed_last_iter` flag and the
round counter `n_steps`. -/
structure TMState where
  tm : List (List (Option Nat))
  prev : List (List (Option Nat))
  changed : Bool
  nSteps : Nat
  deriving Repr, DecidableEq

/-- Relax edge `(s, r)` on one origin row, returning the updated cost row,
predecessor row and a flag telling whether the cost entry changed.  This is
one origin's slice of the vectorised body of `construct_time_matrix`. -/
def relaxRow (s r : Nat) (tmRow prevRow : List (Option Nat)) :
    List (Option Nat) × List (Option Nat) × Bool :=
  let ts := tmRow.getD s none
  let tr := tmRow.getD r none
  let nc := optMin (optAdd1 ts) tr
  (tmRow.set r nc,
   if optLt (optAdd1 ts) tr then prevRow.set r (some s) else prevRow,
   nc != tr)

/-- Relax edge `(s, r)` simultaneously for every origin row, accumulating the
`changed_last_iter` flag, as the numpy column updates in the loop body do. -/
def relaxEdge (s r : Nat) (st : TMState) : TMState :=
  let rows := (st.tm.zip st.prev).map (fun p => relaxRow s r p.1 p.2)
  { tm := rows.map (·.1)
    prev := rows.map (·.2.1)
    changed := st.changed || rows.any (·.2.2)
    nSteps := st.nSteps }

/-- One full pass over the edge list (`for (sender, receiver) in zip ...`). -/
def relaxPass (edges : List (Nat × Nat)) (st : TMState) : TMState :=
  edges.foldl (fun acc e => relaxEdge e.1 e.2 acc) st

/-- Does the time matrix hold no infinite entry?  This is the negation of the
`np.sum(time_matrix) == np.Inf` test guarding the loop. -/
def allFinite (tm : List (List (Option Nat))) : Bool :=
  tm.all (fun row => row.all (·.isSome))

/-- The `while changed_last_iter and np.sum(time_matrix) == np.Inf` loop,
embedded with explicit fuel.  Each iteration clears the flag, performs a full
pass, increments `n_steps`, and breaks when `n_steps > horizon > -1`. -/
def ctmLoop (edges : List (Nat × Nat)) (horizon : Int) :
    Nat → TMState → TMState
  | 0, st => st
  | fuel + 1, st =>
    if st.changed && !(allFinite st.tm) then
      let st1 := relaxPass edges { st with changed := false }
      let st2 := { st1 with nSteps := st1.nSteps + 1 }
      if horizon > -1 && (st2.nSteps : Int) > horizon then st2
      else ctmLoop edges horizon fuel st2
    else st

/-- Initial relaxation state: zero diagonal, infinite off-diagonal costs,
all predecessors at the `-1` sentinel, `changed_last_iter = True`. -/
def tmInit (n : Nat) : TMState :=
  { tm := (List.range n).map (fun i =>
      (List.range n).map (fun j => if i = j then some 0 else none))
    prev := List.replicate n (List.replicate n (none : Option Nat))
    changed := true
    nSteps := 0 }

/-- Clamp a finished cost row to finite values, `np.nan_to_num(·, posinf=MAX_COST)`. -/
def clampRow (row : List (Option Nat)) : List Nat :=
  row.map (fun o => o.getD MAX_COST)

/-- `construct_time_matrix`: run the relaxation loop from the initial state and
clamp the remaining infinite costs to `MAX_COST`.  Returns the cost matrix and
the predecessor matrix (entries `none` model the `-1` sentinel). -/
def construct_time_matrix (edges : List (Nat × Nat)) (n : Nat) (horizon : Int)
    (fuel : Nat) : List (List Nat) × List (List (Option Nat)) :=
  let st := ctmLoop edges horizon fuel (tmInit n)
  (st.tm.map clampRow, st.prev)

/-- Final loop state of `construct_time_matrix`, kept separate so that the
exit condition of the relaxation loop can be inspected. -/
def ctmFinalState (edges : List (Nat × Nat)) (n : Nat) (horizon : Int)
    (fuel : Nat) : TMState :=
  ctmLoop edges horizon fuel (tmInit n)

/-- Nodes reachable from the set `S` by following one listed edge, together
with `S` itself. -/
def expandOnce (edges : List (Nat × Nat)) (S : List Nat) : List Nat :=
  S ++ (edges.filter (fun e => e.1 ∈ S)).map (·.2)

/-- Nodes reachable from `a` in at most `k` hops along listed edges. -/
def reachIn (edges : List (Nat × Nat)) (a : Nat) : Nat → List Nat
  | 0 => [a]
  | k + 1 => expandOnce edges (reachIn edges a k)

/-- Exact hop distance from `a` to `b`: the least `k ≤ fuel` such that `b` is
reachable from `a` in `k` hops, if any. -/
def hopDist (edges : List (Nat × Nat)) (a b : Nat) (fuel : Nat) : Option Nat :=
  (List.range (fuel + 1)).find? (fun k => b ∈ reachIn edges a k)

/-- Reconstruct the path from `o` to `v` recorded in a predecessor matrix by
walking the `prev[o, ·]` chain backwards, as the controller does one hop at a
time. -/
def reconPath (prev : List (List (Option Nat))) (o : Nat) :
    Nat → Nat → Option (List Nat)
  | 0, v => if v = o then some [o] else none
  | fuel + 1, v =>
    if v = o then some [o]
    else
      match (prev.getD o []).getD v none with
      | none => none
      | some p => (reconPath prev o fuel p).map (· ++ [v])

/-- Is the list a walk along listed edges? -/
def isWalk (edges : List (Nat × Nat)) : List Nat → Bool
  | [] => false
  | [_] => true
  | a :: b :: rest => edges.contains (a, b) && isWalk edges (b :: rest)

/-- The spec's hand-built 4-node path graph `0 - 1 - 2 - 3`: symmetric unit
edges plus self-loops, listed in lexicographic (numpy row-major) order. -/
def path4Edges : List (Nat × Nat) :=
  [(0, 0), (0, 1), (1, 0), (1, 1), (1, 2), (2, 1), (2, 2), (2, 3), (3, 2), (3, 3)]

/-- A five-target motion graph realisable as lattice points kept around a road
corner: a 2 × 2 block `{0, 1, 2, 3}` (row-major) with a pendant node `4` below
node `2`; adjacency `0-1, 0-2, 1-3, 2-3, 2-4` within the motion radius.  The
edge list holds exactly the symmetric radius edges plus all self-loops, in one
admissible order. -/
def cornerEdges : List (Nat × Nat) :=
  [(1, 0), (2, 3), (3, 2), (3, 3), (4, 2), (4, 4), (0, 2), (2, 2), (0, 0),
   (1, 1), (2, 4), (2, 0), (0, 1), (3, 1), (1, 3)]

/-! ### get_action_edges -/

/-- Outgoing motion-graph neighbours of the node `cur`:
`motion_edges[1][np.where(motion_edges[0] == cur)]`. -/
def nextNodes (motionEdges : List (Nat × Nat)) (cur : Nat) : List Nat :=
  (motionEdges.filter (fun e => e.1 == cur)).map (·.2)

/-- Per-robot receiver block built by `get_action_edges`: the outgoing
neighbours of the current node, padded with self-loops to the current node
when fewer than `N_ACTIONS` exist (no truncation happens otherwise). -/
def paddedNodes (motionEdges : List (Nat × Nat)) (cur : Nat) : List Nat :=
  let nn := nextNodes motionEdges cur
  if nn.length < N_ACTIONS then
    nn ++ List.replicate (N_ACTIONS - nn.length) cur
  else nn

/-- Sender array of `get_action_edges`: the literal `[i] * 4` appended for
each robot `i`. -/
def actionSenders (nRobots : Nat) : List Nat :=
  (List.range nRobots).foldr (fun i acc => List.replicate 4 i ++ acc) []

/-- Receiver array of `get_action_edges`: the concatenation of the per-robot
padded neighbour blocks, where `currNodes` lists each robot's current node. -/
def actionReceivers (motionEdges : List (Nat × Nat)) (currNodes : List Nat) :
    List Nat :=
  currNodes.foldr (fun c acc => paddedNodes motionEdges c ++ acc) []

/-! ### step: destination resolution with collision checking -/

/-- First loop of `step`: `next_locs` starts at the `-1` sentinel (`none`) and
a robot's destination is finalised immediately exactly when it equals the
robot's previous location (a no-op). -/
def nextLocsInit (lastLoc dest : List Nat) : List (Option Nat) :=
  (List.range lastLoc.length).map (fun i =>
    if dest.getD i 0 = lastLoc.getD i 0 then some (dest.getD i 0) else none)

/-- Body of the second loop of `step` at robot `i`: a still-pending robot
moves to its destination unless collision checking finds the destination among
the already-finalised entries, in which case it stays at its previous
location. -/
def resolveAt (collisionChecks : Bool) (lastLoc dest : List Nat)
    (cur : List (Option Nat)) (i : Nat) : List (Option Nat) :=
  match cur.getD i none with
  | some _ => cur
  | none =>
    let d := dest.getD i 0
    if !collisionChecks || !(cur.contains (some d)) then cur.set i (some d)
    else cur.set i (some (lastLoc.getD i 0))

/-- Second loop of `step`, processing the robot indices in order. -/
def resolveFold (collisionChecks : Bool) (lastLoc dest : List Nat) :
    List Nat → List (Option Nat) → List (Option Nat)
  | [], cur => cur
  | i :: rest, cur =>
    resolveFold collisionChecks lastLoc dest rest
      (resolveAt collisionChecks lastLoc dest cur i)

/-- Final per-robot locations computed by `step` from the previous locations
and per-robot chosen destinations. -/
def stepNextLocs (collisionChecks : Bool) (lastLoc dest : List Nat) :
    List (Option Nat) :=
  resolveFold collisionChecks lastLoc dest (List.range lastLoc.length)
    (nextLocsInit lastLoc dest)

/-! ### visitation and reward (_get_obs_reward) -/

/-- Number of set flags in a slice, `np.sum` of a 0/1 array. -/
def countTrue (l : List Bool) : Nat := l.count true

/-- `self.visited[self.closest_targets] = 1`: set the flag at every listed
index. -/
def markVisited (visited : List Bool) (cts : List Nat) : List Bool :=
  cts.foldl (fun v c => v.set c true) visited

/-- Reward of one `_get_obs_reward` call: the target-slice sum of the visited
flags after marking minus the sum before (`old_sum`). -/
def stepReward (visited : List Bool) (cts : List Nat) (nRobots : Nat) : Int :=
  (countTrue ((markVisited visited cts).drop nRobots) : Int)
    - (countTrue (visited.drop nRobots) : Int)

/-- Visited flags after a sequence of steps, each marking its list of closest
targets (the only write to `visited` when the revisit rule is disabled). -/
def visitedAfter (visited : List Bool) (ctss : List (List Nat)) : List Bool :=
  ctss.foldl markVisited visited

/-! ### step counter and episode termination -/

/-- The step-counter/visited state threaded between `_get_obs_reward` calls. -/
structure EnvState where
  stepCounter : Nat
  visited : List Bool
  deriving Repr, DecidableEq

/-- One `_get_obs_reward` call: mark the closest targets visited, increment
the step counter, and report
`done = step_counter == episode_length or sum(visited[n_robots:]) == n_targets`. -/
def getObsDone (episodeLength nRobots nTargets : Nat) (cts : List Nat)
    (st : EnvState) : EnvState × Bool :=
  let visited := markVisited st.visited cts
  let counter := st.stepCounter + 1
  (⟨counter, visited⟩,
   counter == episodeLength || countTrue (visited.drop nRobots) == nTargets)

/-- `reset`: the step counter is zeroed, the visited flags are re-initialised,
and then `_get_obs_reward` is called once (its done flag is discarded), with
`cts0` the closest targets of the freshly placed robots. -/
def envReset (episodeLength nRobots nTargets : Nat) (visited0 : List Bool)
    (cts0 : List Nat) : EnvState :=
  (getObsDone episodeLength nRobots nTargets cts0 ⟨0, visited0⟩).1

/-- State after a sequence of `step` calls, each passing through
`_get_obs_reward`. -/
def envRun (episodeLength nRobots nTargets : Nat) (st : EnvState)
    (ctss : List (List Nat)) : EnvState :=
  ctss.foldl (fun s c => (getObsDone episodeLength nRobots nTargets c s).1) st

/-- The done flag returned by the `k`-th `step` call after `reset` (`k ≥ 1`),
where `ctss` lists the closest-target lists of the successive step calls. -/
def doneAtCall (episodeLength nRobots nTargets : Nat) (visited0 : List Bool)
    (cts0 : List Nat) (ctss : List (List Nat)) (k : Nat) : Bool :=
  (getObsDone episodeLength nRobots nTargets (ctss.getD (k - 1) [])
    (envRun episodeLength nRobots nTargets
      (envReset episodeLength nRobots nTargets visited0 cts0)
      (ctss.take (k - 1)))).2

/-! ### controller action translation -/

/-- Data the controller holds for one robot when translating its decided
target into an action index: the decided target (`none` models the `-1`
no-target sentinel), the robot's current node, its candidate receiver list
(`mov_edges` slice), and the uniform random draw `np_random.choice(n_actions)`
consumed on the fallback path. -/
structure RobotDec where
  nextLoc : Option Nat
  currLoc : Nat
  candidates : List Nat
  rand : Nat
  deriving Repr, DecidableEq

/-- Predecessor-matrix lookup
`graph_previous[next_loc - n_robots, curr_loc - n_robots]` for a decided
target `t`, `none` modelling the `-1` no-path sentinel. -/
def prevLookup (prev : List (List (Option Nat))) (nRobots t c : Nat) :
    Option Nat :=
  (prev.getD (t - nRobots) []).getD (c - nRobots) none

/-- Translate one robot's decision into an action index: with the no-target
sentinel or the no-path sentinel the uniform random draw is returned;
otherwise the predecessor next hop is matched against the robot's candidate
list (`none` models the `IndexError` of an empty match). -/
def controllerAction (prev : List (List (Option Nat))) (nRobots : Nat)
    (r : RobotDec) : Option Nat :=
  match r.nextLoc with
  | none => some r.rand
  | some t =>
    match prevLookup prev nRobots t r.currLoc with
    | none => some r.rand
    | some p =>
      r.candidates.findIdx? (fun c => c == p + nRobots)

/-- Per-robot action indices produced by the controller's translation loop. -/
def controllerActions (prev : List (List (Option Nat))) (nRobots : Nat)
    (rs : List RobotDec) : List (Option Nat) :=
  rs.map (controllerAction prev nRobots)

/-! ### get_n_nearest -/

/-- Body of the `get_n_nearest` loop: add every receiver whose sender already
belongs to the set. -/
def expandSet (edges : List (Nat × Nat)) (S : Finset Nat) : Finset Nat :=
  S ∪ ((edges.filter (fun e => e.1 ∈ S)).map (·.2)).toFinset

/-- The `while len(n_nearest) < n` loop of `get_n_nearest` with explicit fuel;
`none` reports that the guard was still true when the fuel ran out (the
Python loop would still be running). -/
def getNNearestGo (edges : List (Nat × Nat)) (n : Nat) :
    Nat → Finset Nat → Option (Finset Nat)
  | 0, S => if S.card < n then none else some S
  | fuel + 1, S =>
    if S.card < n then getNNearestGo edges n fuel (expandSet edges S)
    else some S

/-- `get_n_nearest(i, n)`: expand breadth-first from `{i}` until at least `n`
nodes are collected. -/
def get_n_nearest (edges : List (Nat × Nat)) (i n fuel : Nat) :
    Option (Finset Nat) :=
  getNNearestGo edges n fuel {i}

/-- All nodes the expansion can ever reach from `i`: the iterate of
`expandSet` at its stabilisation bound. -/
def reachUniverse (edges : List (Nat × Nat)) (i : Nat) : Finset Nat :=
  insert i (edges.map (·.2)).toFinset

/-- The reachable set of `i`: iterating `expandSet` from `{i}` as many times
as the universe has elements reaches the fixpoint. -/
def reachSet (edges : List (Nat × Nat)) (i : Nat) : Finset Nat :=
  (expandSet edges)^[(reachUniverse edges i).card] {i}

/-- A motion graph with a degree-five node, realisable as a plus-shaped road
crossing on the square lattice: centre node `0` with its four orthogonal
neighbours, symmetric radius edges plus all self-loops. -/
def plusEdges : List (Nat × Nat) :=
  [(0, 0), (0, 1), (0, 2), (0, 3), (0, 4), (1, 0), (1, 1), (2, 0), (2, 2),
   (3, 0), (3, 3), (4, 0), (4, 4)]

/-- Check that the predecessor matrix reconstructs, for every ordered pair of
nodes, a walk along listed edges from the first to the second whose hop count
matches the exact hop distance. -/
def reconOk (edges : List (Nat × Nat)) (prev : List (List (Option Nat)))
    (n fuel : Nat) : Bool :=
  (List.range n).all (fun o => (List.range n).all (fun v =>
    match reconPath prev o fuel v with
    | none => false
    | some p =>
      isWalk edges p && p.head? == some o && p.getLast? == some v &&
        p.length == ((hopDist edges o v fuel).getD MAX_COST) + 1))

/-! ### Helper lemmas about the relaxation loop -/

/-- A full relaxation pass leaves the round counter untouched. -/
theorem relaxPass_nSteps (edges : List (Nat × Nat)) (st : TMState) :
    (relaxPass edges st).nSteps = st.nSteps := by
  induction edges generalizing st with
  | nil => rfl
  | cons e es ih =>
    show (relaxPass es (relaxEdge e.1 e.2 st)).nSteps = st.nSteps
    rw [ih]
    rfl

/-- Helper for the horizon bound: if the loop enters with the round counter
within a nonnegative horizon, it exits with at most `horizon + 1` rounds,
because each round increments the counter and the `n_steps > horizon > -1`
break fires as soon as the horizon is exceeded. -/
theorem ctmLoop_nSteps_le (edges : List (Nat × Nat)) (horizon : Int)
    (hh : 0 ≤ horizon) :
    ∀ (fuel : Nat) (st : TMState), st.nSteps ≤ horizon.toNat →
      (ctmLoop edges horizon fuel st).nSteps ≤ horizon.toNat + 1
  | 0, st, h => h.trans (Nat.le_succ _)
  | fuel + 1, st, h => by
    show (ctmLoop edges horizon (fuel + 1) st).nSteps ≤ horizon.toNat + 1
    rw [ctmLoop]
    split
    · dsimp only
      have hpass : (relaxPass edges { st with changed := false }).nSteps
          = st.nSteps := relaxPass_nSteps _ _
      split
      · simp only [hpass]
        omega
      · rename_i hbreak
        refine ctmLoop_nSteps_le edges horizon hh fuel _ ?_
        simp only [Bool.and_eq_true, decide_eq_true_eq, not_and, hpass]
          at hbreak ⊢
        have h1 : horizon > -1 := by omega
        have h2 := hbreak h1
        omega
    · exact h.trans (Nat.le_succ _)

/-! ### C1 -/

/-- C1 counterexample: on the five-target corner graph (an admissible motion
graph of the episode geometry), `construct_time_matrix` with unbounded horizon
returns cost 4 for the pair `(4, 3)` whose exact hop distance is 2, and the
predecessor matrix reconstructs the four-hop walk `4, 2, 0, 1, 3` instead of
a shortest path; so the time matrix does not equal the exact hop distances. -/
theorem construct_time_matrix_inexact :
    ((construct_time_matrix cornerEdges 5 (-1) 100).1.getD 4 []).getD 3 0 = 4 ∧
    hopDist cornerEdges 4 3 10 = some 2 ∧
    reconPath (construct_time_matrix cornerEdges 5 (-1) 100).2 4 10 3
      = some [4, 2, 0, 1, 3] := by
  refine ⟨by decide, by decide, by decide⟩

/-- C1 (amended): the relaxation rounds continue only until a full pass
changes no entry or no cost entry is infinite, whichever happens first (so
costs can exceed exact hop distances for some admissible motion-edge orders);
on the spec's hand-built 4-node path graph with lexicographically ordered
edges the returned time matrix does equal the exact hop distances and the
predecessor matrix reconstructs the unique shortest path between every pair,
while the run exits after 3 rounds with its final round still changing
entries (the matrix having just become finite). -/
theorem construct_time_matrix_path4 :
    (construct_time_matrix path4Edges 4 (-1) 100).1
        = [[0, 1, 2, 3], [1, 0, 1, 2], [2, 1, 0, 1], [3, 2, 1, 0]] ∧
    (∀ o < 4, ∀ v < 4,
      ((construct_time_matrix path4Edges 4 (-1) 100).1.getD o []).getD v 0
        = (hopDist path4Edges o v 10).getD MAX_COST) ∧
    reconOk path4Edges (construct_time_matrix path4Edges 4 (-1) 100).2 4 10
        = true ∧
    ((ctmFinalState path4Edges 4 (-1) 100).changed = true ∧
      (ctmFinalState path4Edges 4 (-1) 100).nSteps = 3 ∧
      allFinite (ctmFinalState path4Edges 4 (-1) 100).tm = true) ∧
    (∀ (edges : List (Nat × Nat)) (horizon : Int) (fuel : Nat) (st : TMState),
      st.changed = false ∨ allFinite st.tm = true →
        ctmLoop edges horizon fuel st = st) := by
  refine ⟨by decide, by decide, by decide, ⟨by decide, by decide, by decide⟩, ?_⟩
  intro edges horizon fuel st h
  cases fuel with
  | zero => rfl
  | succ fuel =>
    rw [ctmLoop]
    have : (st.changed && !allFinite st.tm) = false := by
      rcases h with h | h <;> simp [h]
    simp [this]

/-- Witness for C1 (amended): the loop-exit rule applied at a concrete state
whose `changed` flag is already clear. -/
theorem construct_time_matrix_path4_witness :
    ctmLoop [] (-1) 5 ⟨[], [], false, 0⟩ = ⟨[], [], false, 0⟩ :=
  construct_time_matrix_path4.2.2.2.2 [] (-1) 5 ⟨[], [], false, 0⟩ (Or.inl rfl)

/-! ### C2 -/

/-- C2 counterexample: with horizon `H = 1` on the spec's 4-node path graph,
the pair `(0, 3)` lies three hops apart yet receives the computed cost 3, not
the unreachable sentinel `MAX_COST`, because relaxation chains propagate more
than one hop inside a single pass. -/
theorem horizon_truncation_leaky :
    ((construct_time_matrix path4Edges 4 1 100).1.getD 0 []).getD 3 0 = 3 ∧
    hopDist path4Edges 0 3 10 = some 3 ∧
    (3 : Nat) ≠ MAX_COST := by
  refine ⟨by decide, by decide, by decide⟩

/-- C2 (amended): with a nonnegative horizon `H` the relaxation executes at
most `H + 1` full passes; entries still infinite at exit are clamped to
`MAX_COST` with predecessor sentinel `-1`, and 1-hop pairs receive their
exact cost, but pairs more than `H` hops apart may still receive finite
computed costs, as the run on the 4-node path graph with `H = 1` shows:
two rounds execute, all 1-hop entries equal 1, the pair `(0, 3)` three hops
away is assigned cost 3, while the pair `(3, 0)` is reported unreachable
with cost `MAX_COST` and predecessor sentinel. -/
theorem horizon_truncation_amended :
    (∀ (edges : List (Nat × Nat)) (horizon : Int) (fuel : Nat) (st : TMState),
      0 ≤ horizon → st.nSteps ≤ horizon.toNat →
        (ctmLoop edges horizon fuel st).nSteps ≤ horizon.toNat + 1) ∧
    (ctmFinalState path4Edges 4 1 100).nSteps = 2 ∧
    (construct_time_matrix path4Edges 4 1 100).1
        = [[0, 1, 2, 3], [1, 0, 1, 2], [2, 1, 0, 1], [1000, 2, 1, 0]] ∧
    (path4Edges.all (fun e =>
      e.1 == e.2 ||
        ((construct_time_matrix path4Edges 4 1 100).1.getD e.1 []).getD e.2 0
          == 1) = true) ∧
    ((construct_time_matrix path4Edges 4 1 100).1.getD 3 []).getD 0 0
        = MAX_COST ∧
    ((construct_time_matrix path4Edges 4 1 100).2.getD 3 []).getD 0 none
        = none := by
  exact ⟨fun edges horizon fuel st hh => ctmLoop_nSteps_le edges horizon hh fuel st,
    by decide, by decide, by decide, by decide, by decide⟩

/-- Witness for C2 (amended): the pass bound applied to a concrete loop run
with horizon 1 from the initial state of the path graph. -/
theorem horizon_truncation_amended_witness :
    (ctmLoop path4Edges 1 100 (tmInit 4)).nSteps ≤ (1 : Int).toNat + 1 :=
  horizon_truncation_amended.1 path4Edges 1 100 (tmInit 4) (by decide) (by decide)

/-! ### C3 -/

/-- C3: at a plus-shaped road crossing the current node has five outgoing
motion edges (four neighbours and the self-loop), and `get_action_edges`
builds a five-entry receiver block against a four-entry sender block for the
robot standing there, so the candidate list is not exactly
`K = N_ACTIONS = 4` and senders no longer match receivers one-to-one; the
`assert` in `_get_obs_reward` only measures the sender array and cannot catch
this. -/
theorem action_edges_degree_overflow :
    nextNodes plusEdges 0 = [0, 1, 2, 3, 4] ∧
    (actionReceivers plusEdges [0]).length = 5 ∧
    (actionSenders 1).length = N_ACTIONS * 1 ∧
    (actionReceivers plusEdges [0]).length ≠ N_ACTIONS * 1 := by
  refine ⟨by decide, by decide, by decide, by decide⟩

/-! ### Helper lemmas about visited flags -/

/-- Setting one flag never clears another. -/
theorem getD_set_true (v : List Bool) (c i : Nat)
    (h : v.getD i false = true) : (v.set c true).getD i false = true := by
  induction v generalizing c i with
  | nil => simp at h
  | cons x xs ih =>
    cases c with
    | zero =>
      cases i with
      | zero => simp
      | succ i => simpa using h
    | succ c =>
      cases i with
      | zero => simpa using h
      | succ i => simpa using ih c i (by simpa using h)

/-- Marking the closest targets never clears a visited flag. -/
theorem markVisited_mono (cts : List Nat) (v : List Bool) (i : Nat)
    (h : v.getD i false = true) : (markVisited v cts).getD i false = true := by
  induction cts generalizing v with
  | nil => simpa [markVisited] using h
  | cons c cs ih => exact ih (v.set c true) (getD_set_true v c i h)

/-- Marking preserves the length of the flag array. -/
theorem markVisited_length (cts : List Nat) (v : List Bool) :
    (markVisited v cts).length = v.length := by
  induction cts generalizing v with
  | nil => rfl
  | cons c cs ih =>
    show (markVisited (v.set c true) cs).length = v.length
    rw [ih]
    exact List.length_set v c true

/-- Indexing into a dropped slice reads the underlying array at the shifted
index. -/
theorem getD_drop_eq (l : List Bool) (k i : Nat) :
    (l.drop k).getD i false = l.getD (k + i) false := by
  induction l generalizing k with
  | nil => simp
  | cons x xs ih =>
    cases k with
    | zero => simp
    | succ k =>
      rw [Nat.succ_add]
      exact ih k

/-- Counting set flags after a monotone update: the new count equals the old
count plus the number of positions that flipped from clear to set. -/
theorem countTrue_newly (a : List Bool) :
    ∀ (b : List Bool), a.length = b.length →
      (∀ i, a.getD i false = true → b.getD i false = true) →
      countTrue b = countTrue a + (a.zip b).countP (fun p => !p.1 && p.2) := by
  induction a with
  | nil =>
    intro b hlen _
    cases b with
    | nil => simp [countTrue]
    | cons y ys => simp at hlen
  | cons x xs ih =>
    intro b hlen hmono
    cases b with
    | nil => simp at hlen
    | cons y ys =>
      have hx : x = true → y = true := fun hx0 => by
        simpa using hmono 0 (by simpa using hx0)
      have htail := ih ys (by simpa using hlen) (fun i hi => by
        simpa using hmono (i + 1) (by simpa using hi))
      cases x with
      | false =>
        cases y with
        | false => simpa [countTrue, List.count_cons] using htail
        | true =>
          simp [countTrue, List.count_cons, List.zip_cons_cons,
            List.countP_cons] at htail ⊢
          omega
      | true =>
        have hy := hx rfl
        subst hy
        simp [countTrue, List.count_cons, List.zip_cons_cons,
          List.countP_cons] at htail ⊢
        omega

/-! ### C5 -/

/-- C5: with the revisit rule disabled, the reward returned by
`_get_obs_reward` (target-slice visited sum after marking minus `old_sum`)
equals exactly the number of targets whose visited flag was clear before the
step and set during it. -/
theorem reward_counts_newly_visited (visited : List Bool) (cts : List Nat)
    (nRobots : Nat) :
    stepReward visited cts nRobots =
      ((((visited.drop nRobots).zip
          ((markVisited visited cts).drop nRobots)).countP
        (fun p => !p.1 && p.2) : Nat) : Int) := by
  have hlen : (visited.drop nRobots).length
      = ((markVisited visited cts).drop nRobots).length := by
    simp [markVisited_length]
  have hmono : ∀ i, (visited.drop nRobots).getD i false = true →
      ((markVisited visited cts).drop nRobots).getD i false = true := by
    intro i hi
    rw [getD_drop_eq] at hi ⊢
    exact markVisited_mono cts visited (nRobots + i) hi
  have hcount := countTrue_newly (visited.drop nRobots)
    ((markVisited visited cts).drop nRobots) hlen hmono
  unfold stepReward
  omega

/-! ### C7 -/

/-- C7: with the revisit rule disabled the visited set is monotone within an
episode: a target marked visited stays visited through every later step until
the next reset, whatever closest-target markings those steps perform. -/
theorem visited_monotone (v : List Bool) (ctss : List (List Nat)) (i : Nat)
    (h : v.getD i false = true) :
    (visitedAfter v ctss).getD i false = true := by
  induction ctss generalizing v with
  | nil => simpa [visitedAfter] using h
  | cons cts rest ih => exact ih (markVisited v cts) (markVisited_mono cts v i h)

/-- Witness for C7: target 2 is visited, and stays visited across two further
steps that mark other nodes. -/
theorem visited_monotone_witness :
    (visitedAfter [false, false, true] [[0], [1, 3]]).getD 2 false = true :=
  visited_monotone [false, false, true] [[0], [1, 3]] 2 (by decide)

/-! ### Helper lemmas for episode termination -/

/-- Each call through `_get_obs_reward` increments the step counter once. -/
theorem envRun_stepCounter (ep nR nT : Nat) (st : EnvState)
    (ctss : List (List Nat)) :
    (envRun ep nR nT st ctss).stepCounter = st.stepCounter + ctss.length := by
  induction ctss generalizing st with
  | nil => rfl
  | cons c cs ih =>
    show (envRun ep nR nT ((getObsDone ep nR nT c st).1) cs).stepCounter = _
    rw [ih]
    simp [getObsDone]
    omega

/-- Running steps folds the visited flags with the per-step markings. -/
theorem envRun_visited (ep nR nT : Nat) (st : EnvState)
    (ctss : List (List Nat)) :
    (envRun ep nR nT st ctss).visited = visitedAfter st.visited ctss := by
  induction ctss generalizing st with
  | nil => rfl
  | cons c cs ih =>
    show (envRun ep nR nT ((getObsDone ep nR nT c st).1) cs).visited = _
    rw [ih]
    rfl

/-! ### C6 -/

/-- C6 counterexample: with `episode_length = 3`, one robot sitting on target
1 and target 2 never visited, the episode returns `done = True` for the first
time on the second step call, not the third: `reset` itself already
increments the step counter once, so the budget fires one call early (and the
third call even reports `done = False` again). -/
theorem done_off_by_one :
    doneAtCall 3 1 2 [true, true, false] [1] [[1], [1], [1]] 1 = false ∧
    doneAtCall 3 1 2 [true, true, false] [1] [[1], [1], [1]] 2 = true ∧
    doneAtCall 3 1 2 [true, true, false] [1] [[1], [1], [1]] 3 = false := by
  refine ⟨by decide, by decide, by decide⟩

/-- C6 (amended): `done` is true exactly when the post-increment step counter
equals `episode_length` or all targets are visited; since `reset` already
performs one increment through `_get_obs_reward`, a step call `k ≥ 1` whose
marking still leaves some target unvisited reports `done = True` iff
`k = episode_length - 1`; and any step call whose marking completes the
targets reports `done = True`. -/
theorem done_budget_amended :
    (∀ (ep nR nT : Nat) (v0 : List Bool) (cts0 : List Nat)
      (ctss : List (List Nat)) (k : Nat), 2 ≤ ep → 1 ≤ k →
        k - 1 ≤ ctss.length →
        countTrue ((visitedAfter v0
            (cts0 :: (ctss.take (k - 1) ++ [ctss.getD (k - 1) []]))).drop nR)
          ≠ nT →
        (doneAtCall ep nR nT v0 cts0 ctss k = true ↔ k = ep - 1)) ∧
    (∀ (ep nR nT : Nat) (v0 : List Bool) (cts0 : List Nat)
      (ctss : List (List Nat)) (k : Nat),
        countTrue ((visitedAfter v0
            (cts0 :: (ctss.take (k - 1) ++ [ctss.getD (k - 1) []]))).drop nR)
          = nT →
        doneAtCall ep nR nT v0 cts0 ctss k = true) := by
  have hshape : ∀ (ep nR nT : Nat) (v0 : List Bool) (cts0 : List Nat)
      (ctss : List (List Nat)) (k : Nat),
      doneAtCall ep nR nT v0 cts0 ctss k =
        ((1 + (ctss.take (k - 1)).length + 1 == ep) ||
          (countTrue ((visitedAfter v0
              (cts0 :: (ctss.take (k - 1) ++ [ctss.getD (k - 1) []]))).drop nR)
            == nT)) := by
    intro ep nR nT v0 cts0 ctss k
    unfold doneAtCall getObsDone
    have hc : (envRun ep nR nT (envReset ep nR nT v0 cts0)
        (ctss.take (k - 1))).stepCounter = 1 + (ctss.take (k - 1)).length := by
      rw [envRun_stepCounter]
      rfl
    have hv : (envRun ep nR nT (envReset ep nR nT v0 cts0)
        (ctss.take (k - 1))).visited
        = visitedAfter (markVisited v0 cts0) (ctss.take (k - 1)) := by
      rw [envRun_visited]
      rfl
    have htail : markVisited
        (visitedAfter (markVisited v0 cts0) (ctss.take (k - 1)))
        (ctss.getD (k - 1) [])
        = visitedAfter v0
            (cts0 :: (ctss.take (k - 1) ++ [ctss.getD (k - 1) []])) := by
      simp [visitedAfter, List.foldl_append]
    simp only [hc, hv, htail]
  constructor
  · intro ep nR nT v0 cts0 ctss k hep hk hkl hnot
    rw [hshape]
    have hlen : (ctss.take (k - 1)).length = k - 1 := by
      simp [List.length_take]
      omega
    rw [hlen]
    simp only [Bool.or_eq_true, beq_iff_eq]
    constructor
    · rintro (hcount | hcount)
      · omega
      · exact absurd hcount hnot
    · intro hke
      left
      omega
  · intro ep nR nT v0 cts0 ctss k hall
    rw [hshape]
    simp only [Bool.or_eq_true, beq_iff_eq]
    exact Or.inr hall

/-- Witness for C6 (amended): both clauses applied in the concrete
three-step episode: with `episode_length = 3` the second call is the first
where the budget fires, and a call that completes the targets reports done. -/
theorem done_budget_amended_witness :
    (doneAtCall 3 1 2 [true, true, false] [1] [[1], [1]] 2 = true ↔
      (2 : Nat) = 3 - 1) ∧
    doneAtCall 10 1 2 [true, true, false] [1] [[1], [2]] 2 = true :=
  ⟨done_budget_amended.1 3 1 2 [true, true, false] [1] [[1], [1]] 2
      (by decide) (by decide) (by decide) (by decide),
    done_budget_amended.2 10 1 2 [true, true, false] [1] [[1], [2]] 2
      (by decide)⟩

/-! ### C8 -/

/-- C8: unreachability is recoverable in the controller's action translation:
a robot whose decided target is the no-target sentinel, or whose
predecessor-matrix entry for (target, current node) is the no-path sentinel,
gets exactly its uniform random draw as action (one of its `n_actions`
candidate indices, never an error), and each robot's action depends only on
that robot's own data, so only the affected robot degrades. -/
theorem controller_unreachable_random :
    (∀ (prev : List (List (Option Nat))) (nRobots : Nat) (r : RobotDec),
      r.rand < N_ACTIONS → r.nextLoc = none →
        controllerAction prev nRobots r = some r.rand ∧ r.rand < N_ACTIONS) ∧
    (∀ (prev : List (List (Option Nat))) (nRobots : Nat) (r : RobotDec)
      (t : Nat), r.rand < N_ACTIONS → r.nextLoc = some t →
        prevLookup prev nRobots t r.currLoc = none →
        controllerAction prev nRobots r = some r.rand ∧ r.rand < N_ACTIONS) ∧
    (∀ (prev : List (List (Option Nat))) (nRobots : Nat)
      (rs1 rs2 : List RobotDec) (m : Nat), rs1[m]? = rs2[m]? →
        (controllerActions prev nRobots rs1)[m]?
          = (controllerActions prev nRobots rs2)[m]?) := by
  refine ⟨?_, ?_, ?_⟩
  · intro prev nRobots r hr hnone
    refine ⟨?_, hr⟩
    simp [controllerAction, hnone]
  · intro prev nRobots r t hr hsome hlook
    refine ⟨?_, hr⟩
    simp [controllerAction, hsome, hlook]
  · intro prev nRobots rs1 rs2 m hm
    unfold controllerActions
    rw [List.getElem?_map, List.getElem?_map, hm]

/-- Witness for C8: the fallback applied for both sentinels in a concrete
controller state, plus the per-robot independence at a concrete position. -/
theorem controller_unreachable_random_witness :
    (controllerAction [[none, some 0], [some 1, none]] 1
        ⟨none, 2, [2, 3], 3⟩ = some 3 ∧ (3 : Nat) < N_ACTIONS) ∧
    (controllerAction [[none, some 0], [some 1, none]] 1
        ⟨some 1, 1, [2, 3], 2⟩ = some 2 ∧ (2 : Nat) < N_ACTIONS) ∧
    (controllerActions [] 1 [⟨none, 2, [2], 0⟩, ⟨none, 5, [5], 1⟩])[1]?
      = (controllerActions [] 1 [⟨some 9, 4, [7], 3⟩, ⟨none, 5, [5], 1⟩])[1]? :=
  ⟨controller_unreachable_random.1 [[none, some 0], [some 1, none]] 1
      ⟨none, 2, [2, 3], 3⟩ (by decide) rfl,
    controller_unreachable_random.2.1 [[none, some 0], [some 1, none]] 1
      ⟨some 1, 1, [2, 3], 2⟩ 1 (by decide) rfl (by decide),
    controller_unreachable_random.2.2 [] 1
      [⟨none, 2, [2], 0⟩, ⟨none, 5, [5], 1⟩]
      [⟨some 9, 4, [7], 3⟩, ⟨none, 5, [5], 1⟩] 1 rfl⟩

/-! ### Helper lemmas for destination resolution -/

/-- Reading the slot just written by `set`. -/
theorem getD_set_self {α : Type} (l : List α) (c : Nat) (a d : α)
    (h : c < l.length) : (l.set c a).getD c d = a := by
  rw [List.getD_eq_getElem?_getD, List.getElem?_set_self]
  · rfl
  · exact h

/-- Reading any other slot after `set`. -/
theorem getD_set_ne {α : Type} (l : List α) (c m : Nat) (a d : α)
    (h : c ≠ m) : (l.set c a).getD m d = l.getD m d := by
  rw [List.getD_eq_getElem?_getD, List.getElem?_set_ne h,
    ← List.getD_eq_getElem?_getD]

/-- Bool-level membership used by the collision check. -/
theorem contains_eq_true_iff (l : List (Option Nat)) (x : Option Nat) :
    l.contains x = true ↔ x ∈ l := by
  simp

/-- A defaulted read that produces a value witnesses membership. -/
theorem mem_of_getD_some {α : Type} (l : List (Option α)) (m : Nat) (x : α)
    (h : l.getD m none = some x) : some x ∈ l := by
  rw [List.getD_eq_getElem?_getD] at h
  cases hm : l[m]? with
  | none => rw [hm] at h; cases h
  | some y =>
    rw [hm] at h
    simp only [Option.getD_some] at h
    subst h
    exact List.getElem?_mem hm

/-- Reading inside a map over `List.range`. -/
theorem getD_map_range {α : Type} (f : Nat → α) (n m : Nat) (d : α)
    (h : m < n) : (((List.range n).map f).getD m d) = f m := by
  rw [List.getD_eq_getElem?_getD, List.getElem?_map, List.getElem?_range h]
  rfl

/-- Processing one robot preserves the number of slots. -/
theorem resolveAt_length (cc : Bool) (last dest : List Nat)
    (cur : List (Option Nat)) (i : Nat) :
    (resolveAt cc last dest cur i).length = cur.length := by
  cases h : cur.getD i none with
  | some x => simp only [resolveAt, h]
  | none =>
    simp only [resolveAt, h]
    split <;> simp

/-- Processing robot `i` leaves every other slot unchanged. -/
theorem resolveAt_getD_ne (cc : Bool) (last dest : List Nat)
    (cur : List (Option Nat)) (i m : Nat) (hne : i ≠ m) :
    (resolveAt cc last dest cur i).getD m none = cur.getD m none := by
  cases h : cur.getD i none with
  | some x => simp only [resolveAt, h]
  | none =>
    simp only [resolveAt, h]
    split
    · exact getD_set_ne cur i m _ none hne
    · exact getD_set_ne cur i m _ none hne

/-- A finalised slot survives processing any robot. -/
theorem resolveAt_stable (cc : Bool) (last dest : List Nat)
    (cur : List (Option Nat)) (i m x : Nat)
    (h : cur.getD m none = some x) :
    (resolveAt cc last dest cur i).getD m none = some x := by
  by_cases him : i = m
  · subst him
    cases h2 : cur.getD i none with
    | some y =>
      simp only [resolveAt, h2]
      rw [← h2]
      exact h
    | none => rw [h] at h2; cases h2
  · rw [resolveAt_getD_ne cc last dest cur i m him]
    exact h

/-- The resolution loop over a concatenation processes the parts in order. -/
theorem resolveFold_append (cc : Bool) (last dest : List Nat)
    (l1 l2 : List Nat) (cur : List (Option Nat)) :
    resolveFold cc last dest (l1 ++ l2) cur
      = resolveFold cc last dest l2 (resolveFold cc last dest l1 cur) := by
  induction l1 generalizing cur with
  | nil => rfl
  | cons a l1 ih => exact ih (resolveAt cc last dest cur a)

/-- The resolution loop preserves the number of slots. -/
theorem resolveFold_length (cc : Bool) (last dest : List Nat)
    (idxs : List Nat) : ∀ (cur : List (Option Nat)),
    (resolveFold cc last dest idxs cur).length = cur.length := by
  induction idxs with
  | nil => intro cur; rfl
  | cons a rest ih =>
    intro cur
    rw [resolveFold, ih, resolveAt_length]

/-- Slots whose index is never processed keep their value. -/
theorem resolveFold_untouched (cc : Bool) (last dest : List Nat)
    (idxs : List Nat) (m : Nat) (hm : m ∉ idxs) :
    ∀ (cur : List (Option Nat)),
      (resolveFold cc last dest idxs cur).getD m none = cur.getD m none := by
  induction idxs with
  | nil => intro cur; rfl
  | cons a rest ih =>
    intro cur
    have ha : a ≠ m := fun hh => hm (hh ▸ List.mem_cons_self a rest)
    have hrest : m ∉ rest := fun hh => hm (List.mem_cons_of_mem a hh)
    rw [resolveFold, ih hrest, resolveAt_getD_ne cc last dest cur a m ha]

/-- A finalised slot survives the rest of the resolution loop. -/
theorem resolveFold_stable (cc : Bool) (last dest : List Nat)
    (idxs : List Nat) (m x : Nat) :
    ∀ (cur : List (Option Nat)), cur.getD m none = some x →
      (resolveFold cc last dest idxs cur).getD m none = some x := by
  induction idxs with
  | nil => intro cur h; exact h
  | cons a rest ih =>
    intro cur h
    exact ih (resolveAt cc last dest cur a)
      (resolveAt_stable cc last dest cur a m x h)

/-- With collision checking on, processing a robot that neither aims at `v`
nor previously sat at `v` cannot put `v` into the slots. -/
theorem resolveAt_vfree (last dest : List Nat) (cur : List (Option Nat))
    (i v : Nat) (hv : some v ∉ cur) (hd : dest.getD i 0 ≠ v)
    (hl : last.getD i 0 ≠ v) :
    some v ∉ resolveAt true last dest cur i := by
  cases h : cur.getD i none with
  | some x =>
    simp only [resolveAt, h]
    exact hv
  | none =>
    simp only [resolveAt, h]
    split
    · intro hmem
      rcases List.mem_or_eq_of_mem_set hmem with hm | he
      · exact hv hm
      · exact hd (Option.some.inj he).symm
    · intro hmem
      rcases List.mem_or_eq_of_mem_set hmem with hm | he
      · exact hv hm
      · exact hl (Option.some.inj he).symm

/-- The resolution loop over robots avoiding `v` keeps the slots free of
`v`. -/
theorem resolveFold_vfree (last dest : List Nat) (v : Nat)
    (idxs : List Nat) :
    ∀ (cur : List (Option Nat)), some v ∉ cur →
      (∀ k ∈ idxs, dest.getD k 0 ≠ v ∧ last.getD k 0 ≠ v) →
      some v ∉ resolveFold true last dest idxs cur := by
  induction idxs with
  | nil => intro cur hv _; exact hv
  | cons a rest ih =>
    intro cur hv hks
    have ha := hks a (List.mem_cons_self a rest)
    exact ih (resolveAt true last dest cur a)
      (resolveAt_vfree last dest cur a v hv ha.1 ha.2)
      (fun k hk => hks k (List.mem_cons_of_mem a hk))

/-- A pending robot whose destination is not among the slots moves there. -/
theorem resolveAt_moves (last dest : List Nat) (cur : List (Option Nat))
    (i : Nat) (hnone : cur.getD i none = none)
    (hfree : some (dest.getD i 0) ∉ cur) :
    resolveAt true last dest cur i = cur.set i (some (dest.getD i 0)) := by
  simp only [resolveAt, hnone]
  rw [if_pos]
  simpa using hfree

/-- A pending robot whose destination is already among the slots is rejected
and stays at its previous location. -/
theorem resolveAt_blocked (last dest : List Nat) (cur : List (Option Nat))
    (i : Nat) (hnone : cur.getD i none = none)
    (hmem : some (dest.getD i 0) ∈ cur) :
    resolveAt true last dest cur i = cur.set i (some (last.getD i 0)) := by
  simp only [resolveAt, hnone]
  rw [if_neg]
  simpa using hmem

/-- Decompose the processing order `range n` around two positions
`i < j < n`. -/
theorem range_split (i j n : Nat) (hij : i < j) (hjn : j < n) :
    List.range n = (List.range i ++ [i]) ++
      (((List.range (j - (i + 1))).map (fun x => (i + 1) + x) ++ [j]) ++
        (List.range (n - (j + 1))).map (fun x => (j + 1) + x)) := by
  have h1 : n = (j + 1) + (n - (j + 1)) := by omega
  have h2 : j = (i + 1) + (j - (i + 1)) := by omega
  conv_lhs => rw [h1, List.range_add (j + 1) (n - (j + 1)), List.range_succ j]
  conv_lhs => rw [h2, List.range_add (i + 1) (j - (i + 1)),
    List.range_succ i]
  have h3 : (i + 1) + (j - (i + 1)) = j := by omega
  rw [h3]
  simp [List.append_assoc]

/-! ### C4 -/

/-- C4: destination resolution in `step` with collision checking on.  First,
no-op priority: a robot whose chosen destination equals its previous location
is finalised in the first loop and always ends there, never blocked.  Second,
first-come occupancy: when exactly two robots `i < j` choose the same node
`v`, neither as a no-op, and no other robot chooses `v` or sits at `v`, then
robot `i` ends at `v` and robot `j` stays at its previous location. -/
theorem step_collision_policy (lastLoc dest : List Nat) (n : Nat)
    (hn : lastLoc.length = n) (_hd : dest.length = n) :
    (∀ m, m < n → dest.getD m 0 = lastLoc.getD m 0 →
      (stepNextLocs true lastLoc dest).getD m none = some (dest.getD m 0)) ∧
    (∀ i j v, i < j → j < n →
      dest.getD i 0 = v → dest.getD j 0 = v →
      lastLoc.getD i 0 ≠ v → lastLoc.getD j 0 ≠ v →
      (∀ k, k < n → k ≠ i → k ≠ j →
        dest.getD k 0 ≠ v ∧ lastLoc.getD k 0 ≠ v) →
      (stepNextLocs true lastLoc dest).getD i none = some v ∧
      (stepNextLocs true lastLoc dest).getD j none
        = some (lastLoc.getD j 0)) := by
  have hstep : stepNextLocs true lastLoc dest
      = resolveFold true lastLoc dest (List.range n)
          (nextLocsInit lastLoc dest) := by
    unfold stepNextLocs
    rw [hn]
  have hlen0 : (nextLocsInit lastLoc dest).length = n := by
    simp [nextLocsInit, hn]
  have hcur0 : ∀ m, m < n → (nextLocsInit lastLoc dest).getD m none
      = if dest.getD m 0 = lastLoc.getD m 0 then some (dest.getD m 0)
        else none := by
    intro m hm
    unfold nextLocsInit
    rw [hn]
    exact getD_map_range _ n m none hm
  constructor
  · intro m hm hnoop
    rw [hstep]
    exact resolveFold_stable true lastLoc dest (List.range n) m
      (dest.getD m 0) _ (by rw [hcur0 m hm, if_pos hnoop])
  · intro i j v hij hjn hdi hdj hvi hvj hothers
    have hin : i < n := lt_trans hij hjn
    have h0i : (nextLocsInit lastLoc dest).getD i none = none := by
      rw [hcur0 i hin, if_neg]
      rw [hdi]
      exact fun hh => hvi hh.symm
    have h0j : (nextLocsInit lastLoc dest).getD j none = none := by
      rw [hcur0 j hjn, if_neg]
      rw [hdj]
      exact fun hh => hvj hh.symm
    have h0free : some v ∉ nextLocsInit lastLoc dest := by
      intro hmem
      unfold nextLocsInit at hmem
      rcases List.mem_map.mp hmem with ⟨m, hmr, hfm⟩
      have hmn : m < n := hn ▸ List.mem_range.mp hmr
      by_cases hcond : dest.getD m 0 = lastLoc.getD m 0
      · rw [if_pos hcond] at hfm
        have hdm : dest.getD m 0 = v := Option.some.inj hfm
        rcases eq_or_ne m i with hmi | hmi
        · exact hvi (hmi ▸ (hcond ▸ hdm))
        · rcases eq_or_ne m j with hmj | hmj
          · exact hvj (hmj ▸ (hcond ▸ hdm))
          · exact (hothers m hmn hmi hmj).1 hdm
      · rw [if_neg hcond] at hfm
        cases hfm
    rw [hstep, range_split i j n hij hjn, resolveFold_append,
      resolveFold_append, resolveFold_append, resolveFold_append]
    set A1 := resolveFold true lastLoc dest (List.range i)
      (nextLocsInit lastLoc dest) with hA1def
    have hA1len : A1.length = n := by
      rw [hA1def, resolveFold_length, hlen0]
    have hA1i : A1.getD i none = none := by
      rw [hA1def, resolveFold_untouched true lastLoc dest (List.range i) i
        (by simp)]
      exact h0i
    have hA1j : A1.getD j none = none := by
      rw [hA1def, resolveFold_untouched true lastLoc dest (List.range i) j
        (by simp; omega)]
      exact h0j
    have hA1free : some v ∉ A1 := by
      rw [hA1def]
      refine resolveFold_vfree lastLoc dest v (List.range i) _ h0free ?_
      intro k hk
      have hki : k < i := List.mem_range.mp hk
      exact hothers k (lt_trans hki hin) (by omega) (by omega)
    have hA2 : resolveFold true lastLoc dest [i] A1 = A1.set i (some v) := by
      show resolveAt true lastLoc dest A1 i = A1.set i (some v)
      rw [resolveAt_moves lastLoc dest A1 i hA1i (by rw [hdi]; exact hA1free),
        hdi]
    rw [hA2]
    set A2 := A1.set i (some v) with hA2def
    have hA2len : A2.length = n := by
      rw [hA2def, List.length_set]
      exact hA1len
    have hA2i : A2.getD i none = some v :=
      getD_set_self A1 i (some v) none (hA1len ▸ hin)
    have hA2j : A2.getD j none = none := by
      rw [hA2def, getD_set_ne A1 i j (some v) none (Nat.ne_of_lt hij)]
      exact hA1j
    set B := (List.range (j - (i + 1))).map (fun x => (i + 1) + x)
      with hBdef
    set A3 := resolveFold true lastLoc dest B A2 with hA3def
    have hA3len : A3.length = n := by
      rw [hA3def, resolveFold_length]
      exact hA2len
    have hA3i : A3.getD i none = some v := by
      rw [hA3def]
      exact resolveFold_stable true lastLoc dest B i v A2 hA2i
    have hA3j : A3.getD j none = none := by
      rw [hA3def, resolveFold_untouched true lastLoc dest B j ?_]
      · exact hA2j
      · intro hmem
        rcases List.mem_map.mp hmem with ⟨x, hx, hxe⟩
        have := List.mem_range.mp hx
        omega
    have hA4 : resolveFold true lastLoc dest [j] A3
        = A3.set j (some (lastLoc.getD j 0)) := by
      show resolveAt true lastLoc dest A3 j = A3.set j (some (lastLoc.getD j 0))
      exact resolveAt_blocked lastLoc dest A3 j hA3j
        (by rw [hdj]; exact mem_of_getD_some A3 i v hA3i)
    rw [hA4]
    set A4 := A3.set j (some (lastLoc.getD j 0)) with hA4def
    have hA4i : A4.getD i none = some v := by
      rw [hA4def, getD_set_ne A3 j i _ none (by omega)]
      exact hA3i
    have hA4j : A4.getD j none = some (lastLoc.getD j 0) :=
      getD_set_self A3 j _ none (hA3len ▸ hjn)
    set C := (List.range (n - (j + 1))).map (fun x => (j + 1) + x)
      with hCdef
    exact ⟨resolveFold_stable true lastLoc dest C i v A4 hA4i,
      resolveFold_stable true lastLoc dest C j (lastLoc.getD j 0) A4 hA4j⟩

/-- Witness for C4: three robots at nodes 10, 11, 12; robots 0 and 1 both
choose node 13 and robot 2 chooses its own node: the no-op robot keeps its
node, robot 0 wins node 13, robot 1 stays at 11. -/
theorem step_collision_policy_witness :
    (stepNextLocs true [10, 11, 12] [13, 13, 12]).getD 2 none = some 12 ∧
    (stepNextLocs true [10, 11, 12] [13, 13, 12]).getD 0 none = some 13 ∧
    (stepNextLocs true [10, 11, 12] [13, 13, 12]).getD 1 none = some 11 := by
  have h := step_collision_policy [10, 11, 12] [13, 13, 12] 3 (by decide)
    (by decide)
  have hpair := h.2 0 1 13 (by decide) (by decide) (by decide) (by decide)
    (by decide) (by decide) (by intro k hk hk0 hk1; interval_cases k <;> simp_all)
  exact ⟨h.1 2 (by decide) (by decide), hpair.1, by
    have := hpair.2
    simpa using this⟩

/-! ### Helper lemmas for the predecessor matrix -/

/-- A predecessor row only records senders of listed edges: whenever it holds
`p` at column `v`, the edge `(p, v)` is in the edge list. -/
def prevRowInv (edges : List (Nat × Nat)) (row : List (Option Nat)) : Prop :=
  ∀ v p, row.getD v none = some p → (p, v) ∈ edges

/-- Reading a defaulted `none` entry of a replicated empty row. -/
theorem getD_replicate_none {α : Type} (n v : Nat) :
    (List.replicate n (none : Option α)).getD v none = none := by
  induction n generalizing v with
  | zero => rfl
  | succ n ih =>
    cases v with
    | zero => rfl
    | succ v =>
      rw [List.replicate_succ]
      exact ih v

/-- Relaxing the edge `(s, r)` preserves the predecessor-row invariant: the
only new entry it can write is `s` at column `r`. -/
theorem relaxRow_prevRowInv (edges : List (Nat × Nat)) (s r : Nat)
    (he : (s, r) ∈ edges) (tmRow prevRow : List (Option Nat))
    (hrow : prevRowInv edges prevRow) :
    prevRowInv edges (relaxRow s r tmRow prevRow).2.1 := by
  intro v p hv
  unfold relaxRow at hv
  dsimp only at hv
  split at hv
  · rcases eq_or_ne r v with hrv | hrv
    · subst hrv
      rcases Nat.lt_or_ge r prevRow.length with hlt | hge
      · rw [getD_set_self prevRow r (some s) none hlt] at hv
        exact (Option.some.inj hv) ▸ he
      · rw [List.set_eq_of_length_le hge] at hv
        exact hrow r p hv
    · rw [getD_set_ne prevRow r v (some s) none hrv] at hv
      exact hrow v p hv
  · exact hrow v p hv

/-- Relaxing one listed edge across all origin rows preserves the invariant
for every row of the predecessor matrix. -/
theorem relaxEdge_prevInv (edges : List (Nat × Nat)) (s r : Nat)
    (he : (s, r) ∈ edges) (st : TMState)
    (h : ∀ row ∈ st.prev, prevRowInv edges row) :
    ∀ row ∈ (relaxEdge s r st).prev, prevRowInv edges row := by
  intro row hrow
  unfold relaxEdge at hrow
  dsimp only at hrow
  rcases List.mem_map.mp hrow with ⟨q, hq, hqe⟩
  rcases List.mem_map.mp hq with ⟨pr, hpr, hpre⟩
  have hmem : pr.2 ∈ st.prev := (List.of_mem_zip hpr).2
  rw [← hqe, ← hpre]
  exact relaxRow_prevRowInv edges s r he pr.1 pr.2 (h pr.2 hmem)

/-- A full pass over a batch of listed edges preserves the invariant. -/
theorem relaxPass_prevInv (edges : List (Nat × Nat)) (l : List (Nat × Nat))
    (hl : ∀ e ∈ l, e ∈ edges) :
    ∀ (st : TMState), (∀ row ∈ st.prev, prevRowInv edges row) →
      ∀ row ∈ (relaxPass l st).prev, prevRowInv edges row := by
  induction l with
  | nil => intro st h; exact h
  | cons e l ih =>
    intro st h
    exact ih (fun q hq => hl q (List.mem_cons_of_mem e hq))
      (relaxEdge e.1 e.2 st)
      (relaxEdge_prevInv edges e.1 e.2 (hl e (List.mem_cons_self e l)) st h)

/-- The whole relaxation loop preserves the invariant. -/
theorem ctmLoop_prevInv (edges : List (Nat × Nat)) (horizon : Int) :
    ∀ (fuel : Nat) (st : TMState),
      (∀ row ∈ st.prev, prevRowInv edges row) →
      ∀ row ∈ (ctmLoop edges horizon fuel st).prev, prevRowInv edges row := by
  intro fuel
  induction fuel with
  | zero => intro st h; exact h
  | succ fuel ih =>
    intro st h
    rw [ctmLoop]
    split
    · dsimp only
      split
      · exact relaxPass_prevInv edges edges (fun e he => he) _ h
      · exact ih _ (relaxPass_prevInv edges edges (fun e he => he) _ h)
    · exact h

/-- Every predecessor entry returned by `construct_time_matrix` names the
sender of a listed edge into its column. -/
theorem construct_prev_entry_is_edge (edges : List (Nat × Nat)) (n : Nat)
    (horizon : Int) (fuel : Nat) (o v p : Nat)
    (hp : (((construct_time_matrix edges n horizon fuel).2).getD o []).getD v
        none = some p) :
    (p, v) ∈ edges := by
  have hinv : ∀ row ∈ (construct_time_matrix edges n horizon fuel).2,
      prevRowInv edges row := by
    refine ctmLoop_prevInv edges horizon fuel (tmInit n) ?_
    intro row hrow v2 p2 hv2
    rw [List.eq_of_mem_replicate hrow, getD_replicate_none] at hv2
    cases hv2
  set prevm := (construct_time_matrix edges n horizon fuel).2 with hprevm
  cases ho : prevm[o]? with
  | none =>
    rw [List.getD_eq_getElem?_getD prevm o [], ho] at hp
    cases hp
  | some row =>
    have hro : prevm.getD o [] = row := by
      rw [List.getD_eq_getElem?_getD prevm o [], ho]
      rfl
    rw [hro] at hp
    exact hinv row (List.getElem?_mem ho) v p hp

/-- A member satisfying the predicate makes the index search succeed. -/
theorem findIdx?_isSome_of_mem {α : Type} (p : α → Bool) (x : α) :
    ∀ (l : List α) (i : Nat), x ∈ l → p x = true →
      (List.findIdx? p l i).isSome = true := by
  intro l
  induction l with
  | nil => intro i hx; cases hx
  | cons a l ih =>
    intro i hx hpx
    rw [List.findIdx?_cons]
    by_cases hp : p a = true
    · simp [hp]
    · simp only [hp, if_false]
      rcases List.mem_cons.mp hx with rfl | hx2
      · exact absurd hpx hp
      · exact ih (i + 1) hx2 hpx

/-- An outgoing edge of `cur` puts its receiver among the next nodes. -/
theorem mem_nextNodes (motionEdges : List (Nat × Nat)) (cur b : Nat)
    (h : (cur, b) ∈ motionEdges) : b ∈ nextNodes motionEdges cur := by
  unfold nextNodes
  exact List.mem_map.mpr ⟨(cur, b), List.mem_filter.mpr ⟨h, by simp⟩, rfl⟩

/-- Padding only appends entries, so next nodes stay in the padded block. -/
theorem mem_paddedNodes (motionEdges : List (Nat × Nat)) (cur b : Nat)
    (h : b ∈ nextNodes motionEdges cur) : b ∈ paddedNodes motionEdges cur := by
  unfold paddedNodes
  dsimp only
  split
  · exact List.mem_append_left _ h
  · exact h

/-! ### C9 -/

/-- C9: whenever the controller's decided target is present and the
predecessor entry for (target, current node) is not the no-path sentinel, the
recorded next hop is the sender of a motion edge into the current node; since
the motion graph is symmetric, the next hop is an outgoing neighbour of the
current node and therefore appears among the robot's padded candidate
receivers, so the action-index lookup (`np.where(...)[0][0]`) succeeds. -/
theorem controller_next_hop_matches (edges : List (Nat × Nat)) (n : Nat)
    (horizon : Int) (fuel nRobots t c p : Nat)
    (hsym : edges.all (fun e => edges.contains (e.2, e.1)) = true)
    (hp : prevLookup (construct_time_matrix edges n horizon fuel).2 nRobots
        (t + nRobots) (c + nRobots) = some p) :
    p + nRobots ∈ paddedNodes
        (edges.map (fun e => (e.1 + nRobots, e.2 + nRobots))) (c + nRobots) ∧
    ((paddedNodes (edges.map (fun e => (e.1 + nRobots, e.2 + nRobots)))
        (c + nRobots)).findIdx? (fun x => x == p + nRobots)).isSome
      = true := by
  have hpc : (p, c) ∈ edges := by
    unfold prevLookup at hp
    simp only [Nat.add_sub_cancel] at hp
    exact construct_prev_entry_is_edge edges n horizon fuel t c p hp
  have hcp : (c, p) ∈ edges := by
    have hc := List.all_eq_true.mp hsym (p, c) hpc
    simpa using hc
  have hmapped : (c + nRobots, p + nRobots)
      ∈ edges.map (fun e => (e.1 + nRobots, e.2 + nRobots)) :=
    List.mem_map.mpr ⟨(c, p), hcp, rfl⟩
  have hmem := mem_paddedNodes _ _ _ (mem_nextNodes _ _ _ hmapped)
  exact ⟨hmem, findIdx?_isSome_of_mem _ _ _ 0 hmem (by simp)⟩

/-- Witness for C9: on the 4-node path graph with one robot, the predecessor
entry for target 0 from current node 1 is node 0, and node 0 (global index 1)
is indeed among the robot's padded candidates at global node 2. -/
theorem controller_next_hop_matches_witness :
    0 + 1 ∈ paddedNodes
        (path4Edges.map (fun e => (e.1 + 1, e.2 + 1))) (1 + 1) ∧
    ((paddedNodes (path4Edges.map (fun e => (e.1 + 1, e.2 + 1)))
        (1 + 1)).findIdx? (fun x => x == 0 + 1)).isSome = true :=
  controller_next_hop_matches path4Edges 4 (-1) 100 1 0 1 0
    (by decide) (by decide)

/-! ### Helper lemmas for get_n_nearest -/

/-- The expansion of the `get_n_nearest` loop only grows the set. -/
theorem subset_expandSet (edges : List (Nat × Nat)) (S : Finset Nat) :
    S ⊆ expandSet edges S :=
  Finset.subset_union_left

/-- The expansion stays inside the universe of the start node and all edge
receivers. -/
theorem expandSet_subset_univ (edges : List (Nat × Nat)) (i : Nat)
    (S : Finset Nat) (h : S ⊆ reachUniverse edges i) :
    expandSet edges S ⊆ reachUniverse edges i := by
  unfold expandSet
  refine Finset.union_subset h ?_
  intro x hx
  rw [List.mem_toFinset] at hx
  rcases List.mem_map.mp hx with ⟨e, he, hee⟩
  have hrec : e.2 ∈ edges.map (·.2) :=
    List.mem_map.mpr ⟨e, (List.mem_filter.mp he).1, rfl⟩
  unfold reachUniverse
  exact Finset.mem_insert_of_mem (List.mem_toFinset.mpr (hee ▸ hrec))

/-- The state of the `get_n_nearest` loop after `k` iterations. -/
def nearIter (edges : List (Nat × Nat)) (i k : Nat) : Finset Nat :=
  (expandSet edges)^[k] {i}

/-- One more iteration expands the current state. -/
theorem nearIter_succ (edges : List (Nat × Nat)) (i k : Nat) :
    nearIter edges i (k + 1) = expandSet edges (nearIter edges i k) :=
  Function.iterate_succ_apply' (expandSet edges) k {i}

/-- Every loop state stays inside the universe. -/
theorem nearIter_subset_univ (edges : List (Nat × Nat)) (i : Nat) :
    ∀ k, nearIter edges i k ⊆ reachUniverse edges i := by
  intro k
  induction k with
  | zero =>
    exact Finset.singleton_subset_iff.mpr (Finset.mem_insert_self i _)
  | succ k ih =>
    rw [nearIter_succ]
    exact expandSet_subset_univ edges i _ ih

/-- Loop states grow monotonically. -/
theorem nearIter_mono (edges : List (Nat × Nat)) (i : Nat) {k m : Nat}
    (h : k ≤ m) : nearIter edges i k ⊆ nearIter edges i m := by
  induction m with
  | zero =>
    have : k = 0 := Nat.le_zero.mp h
    rw [this]
  | succ m ih =>
    rcases Nat.lt_or_ge k (m + 1) with hk | hk
    · refine (ih (Nat.lt_succ_iff.mp hk)).trans ?_
      rw [nearIter_succ]
      exact subset_expandSet edges _
    · have : k = m + 1 := Nat.le_antisymm h hk
      rw [this]

/-- Once an iteration is a fixpoint, the loop state never changes again. -/
theorem nearIter_stab (edges : List (Nat × Nat)) (i k : Nat)
    (h : expandSet edges (nearIter edges i k) = nearIter edges i k) :
    ∀ d, nearIter edges i (k + d) = nearIter edges i k := by
  intro d
  induction d with
  | zero => rfl
  | succ d ih =>
    rw [show k + (d + 1) = (k + d) + 1 from rfl, nearIter_succ, ih, h]

/-- Either some iteration up to `k` is already a fixpoint, or the state has
grown by at least one node per iteration. -/
theorem nearIter_fix_or_card (edges : List (Nat × Nat)) (i : Nat) :
    ∀ k, (∃ m, m ≤ k ∧
        expandSet edges (nearIter edges i m) = nearIter edges i m) ∨
      k + 1 ≤ (nearIter edges i k).card := by
  intro k
  induction k with
  | zero =>
    right
    simp [nearIter]
  | succ k ih =>
    rcases ih with ⟨m, hm, hfix⟩ | hcard
    · exact Or.inl ⟨m, Nat.le_succ_of_le hm, hfix⟩
    · by_cases hfix : expandSet edges (nearIter edges i k) = nearIter edges i k
      · exact Or.inl ⟨k, Nat.le_succ k, hfix⟩
      · right
        have hss : nearIter edges i k ⊂ nearIter edges i (k + 1) := by
          rw [nearIter_succ]
          exact ssubset_of_subset_of_ne (subset_expandSet edges _)
            (fun hh => hfix hh.symm)
        have := Finset.card_lt_card hss
        omega

/-- The designated reachable set is a fixpoint of the expansion. -/
theorem expand_reachSet (edges : List (Nat × Nat)) (i : Nat) :
    expandSet edges (reachSet edges i) = reachSet edges i := by
  have hK : reachSet edges i = nearIter edges i (reachUniverse edges i).card :=
    rfl
  rcases nearIter_fix_or_card edges i (reachUniverse edges i).card with
    ⟨m, hm, hfix⟩ | hcard
  · have hstab := nearIter_stab edges i m hfix ((reachUniverse edges i).card - m)
    have heq : nearIter edges i (reachUniverse edges i).card
        = nearIter edges i m := by
      rw [← hstab]
      congr 1
      omega
    rw [hK, heq, hfix]
  · have hle := Finset.card_le_card
      (nearIter_subset_univ edges i (reachUniverse edges i).card)
    omega

/-- Every loop state is contained in the reachable set. -/
theorem nearIter_subset_reach (edges : List (Nat × Nat)) (i : Nat) (k : Nat) :
    nearIter edges i k ⊆ reachSet edges i := by
  rcases le_or_lt k (reachUniverse edges i).card with hk | hk
  · exact nearIter_mono edges i hk
  · have hstab := nearIter_stab edges i (reachUniverse edges i).card
      (expand_reachSet edges i) (k - (reachUniverse edges i).card)
    have heq : nearIter edges i k
        = nearIter edges i (reachUniverse edges i).card := by
      rw [← hstab]
      congr 1
      omega
    rw [heq]
    exact Finset.Subset.refl _

/-- A loop state that is an expansion fixpoint is the whole reachable set. -/
theorem nearIter_fix_eq_reach (edges : List (Nat × Nat)) (i k : Nat)
    (h : expandSet edges (nearIter edges i k) = nearIter edges i k) :
    nearIter edges i k = reachSet edges i := by
  rcases le_or_lt k (reachUniverse edges i).card with hk | hk
  · have hstab := nearIter_stab edges i k h ((reachUniverse edges i).card - k)
    have heq : nearIter edges i (reachUniverse edges i).card
        = nearIter edges i k := by
      rw [← hstab]
      congr 1
      omega
    exact heq.symm
  · have hstab := nearIter_stab edges i (reachUniverse edges i).card
      (expand_reachSet edges i) (k - (reachUniverse edges i).card)
    have heq : nearIter edges i k
        = nearIter edges i (reachUniverse edges i).card := by
      rw [← hstab]
      congr 1
      omega
    exact heq

/-- When enough nodes are reachable, the loop terminates within `n - card`
iterations, always holding at least `n` nodes at exit. -/
theorem getNNearestGo_some (edges : List (Nat × Nat)) (i n : Nat) :
    ∀ (fuel k : Nat), n ≤ (reachSet edges i).card →
      n ≤ fuel + (nearIter edges i k).card →
      ∃ S, getNNearestGo edges n fuel (nearIter edges i k) = some S ∧
        n ≤ S.card ∧ S ⊆ reachSet edges i := by
  intro fuel
  induction fuel with
  | zero =>
    intro k _ hcard
    refine ⟨nearIter edges i k, ?_, by omega, nearIter_subset_reach edges i k⟩
    simp only [getNNearestGo]
    rw [if_neg (by omega)]
  | succ fuel ih =>
    intro k hreach hcard
    by_cases hlt : (nearIter edges i k).card < n
    · have hne : expandSet edges (nearIter edges i k) ≠ nearIter edges i k := by
        intro hfix
        have := nearIter_fix_eq_reach edges i k hfix
        rw [this] at hlt
        omega
      have hgrow : (nearIter edges i k).card + 1
          ≤ (nearIter edges i (k + 1)).card := by
        have hss : nearIter edges i k ⊂ nearIter edges i (k + 1) := by
          rw [nearIter_succ]
          exact ssubset_of_subset_of_ne (subset_expandSet edges _)
            (fun hh => hne hh.symm)
        exact Finset.card_lt_card hss
      have hrec := ih (k + 1) hreach (by omega)
      rcases hrec with ⟨S, hS, hScard, hSsub⟩
      refine ⟨S, ?_, hScard, hSsub⟩
      simp only [getNNearestGo]
      rw [if_pos hlt, ← nearIter_succ]
      exact hS
    · refine ⟨nearIter edges i k, ?_, by omega, nearIter_subset_reach edges i k⟩
      simp only [getNNearestGo]
      rw [if_neg hlt]

/-- When fewer than `n` nodes are reachable, the loop guard never turns
false: whatever the fuel, it is exhausted (the Python loop never
terminates). -/
theorem getNNearestGo_none (edges : List (Nat × Nat)) (i n : Nat)
    (hreach : (reachSet edges i).card < n) :
    ∀ (fuel k : Nat), getNNearestGo edges n fuel (nearIter edges i k)
      = none := by
  intro fuel
  induction fuel with
  | zero =>
    intro k
    have hlt : (nearIter edges i k).card < n :=
      lt_of_le_of_lt
        (Finset.card_le_card (nearIter_subset_reach edges i k)) hreach
    simp only [getNNearestGo]
    rw [if_pos hlt]
  | succ fuel ih =>
    intro k
    have hlt : (nearIter edges i k).card < n :=
      lt_of_le_of_lt
        (Finset.card_le_card (nearIter_subset_reach edges i k)) hreach
    simp only [getNNearestGo]
    rw [if_pos hlt, ← nearIter_succ]
    exact ih (k + 1)

/-! ### C10 -/

/-- C10: `get_n_nearest(i, n)` terminates whenever at least `n` nodes are
reachable from `i` by following listed edges (`reachSet` is the closure of
`{i}` under the loop's own expansion; for the symmetric motion graph this is
the connected component of `i`), and then returns a set of at least `n`
nodes all reachable from `i`, within `n` loop iterations; if fewer than `n`
nodes are reachable, the loop guard stays true forever, so every finite fuel
is exhausted: the Python while loop never terminates. -/
theorem get_n_nearest_termination (edges : List (Nat × Nat)) (i n : Nat) :
    (n ≤ (reachSet edges i).card →
      ∃ S, get_n_nearest edges i n n = some S ∧ n ≤ S.card ∧
        S ⊆ reachSet edges i) ∧
    ((reachSet edges i).card < n →
      ∀ fuel, get_n_nearest edges i n fuel = none) := by
  constructor
  · intro hreach
    have h0 : ({i} : Finset Nat) = nearIter edges i 0 := rfl
    unfold get_n_nearest
    rw [h0]
    refine getNNearestGo_some edges i n n 0 hreach ?_
    have : 1 ≤ (nearIter edges i 0).card := by simp [nearIter]
    omega
  · intro hreach fuel
    have h0 : ({i} : Finset Nat) = nearIter edges i 0 := rfl
    unfold get_n_nearest
    rw [h0]
    exact getNNearestGo_none edges i n hreach fuel 0

/-- Witness for C10: on the 4-node path graph the whole target set is
reachable from node 0, so asking for 3 nodes terminates with at least 3
reachable nodes, while asking for 5 nodes loops forever (here checked at
fuel 7). -/
theorem get_n_nearest_termination_witness :
    (∃ S, get_n_nearest path4Edges 0 3 3 = some S ∧ 3 ≤ S.card ∧
      S ⊆ reachSet path4Edges 0) ∧
    get_n_nearest path4Edges 0 5 7 = none :=
  ⟨(get_n_nearest_termination path4Edges 0 3).1 (by decide),
    (get_n_nearest_termination path4Edges 0 5).2 (by decide) 7⟩

end GymFlock
